import Mathlib

/-!
Verification of the bidi run-reversal transform of `rplugin/python3/bidiview.py`.

A line of text is modelled as a `List Char` (a Python `str` is a sequence of
Unicode code points).  The transform `to_bidi` in the source is

    pattern = "([؀-ۿ|‌]+)"
    return re.sub(pattern, lambda match: match.group(1)[::-1], text)

`re.sub` scans the line left to right, matches each leftmost maximal
(`+` is greedy) run of characters of the bracket class and replaces it with
the run reversed; everything else is copied unchanged.  Note that inside a
bracket class `|` is the literal vertical bar U+007C, and the third member of
the class is the zero-width non-joiner U+200C, so the class matched by the
code is [U+0600, U+06FF] ∪ {U+007C, U+200C}.
-/

namespace BidiView

/-- The character class actually matched by the regex bracket expression
`[؀-ۿ|‌]` of the source: the Arabic block U+0600–U+06FF,
the literal vertical bar U+007C, and the zero-width non-joiner U+200C. -/
def isQual (c : Char) : Bool :=
  (0x600 ≤ c.toNat && c.toNat ≤ 0x6FF) || c.toNat == 0x7C || c.toNat == 0x200C

/-- The qualifying set named by spec §4.1: a code point in [U+0600, U+06FF]
or the joining character U+200C (no vertical bar). -/
def specQual (c : Char) : Bool :=
  (0x600 ≤ c.toNat && c.toNat ≤ 0x6FF) || c.toNat == 0x200C

theorem length_dropWhile_le (p : Char → Bool) (l : List Char) :
    (l.dropWhile p).length ≤ l.length := by
  induction l with
  | nil => simp
  | cons c cs ih =>
    rw [List.dropWhile_cons]
    split
    · exact Nat.le_succ_of_le ih
    · exact Nat.le_refl _

/-- Embedding of `to_bidi`: scan left to right; at a character of the matched
class, take the maximal run of class characters, emit it reversed, and
continue after the run; any other character is copied unchanged. -/
def to_bidi : List Char → List Char
  | [] => []
  | c :: cs =>
    if isQual c then
      (c :: cs.takeWhile isQual).reverse ++ to_bidi (cs.dropWhile isQual)
    else
      c :: to_bidi cs
termination_by l => l.length
decreasing_by
  · exact Nat.lt_succ_of_le (length_dropWhile_le isQual cs)
  · exact Nat.lt_succ_of_le (Nat.le_refl _)

/-- Embedding of `_bidi`: the transform applied to each line independently. -/
def _bidi (lines : List (List Char)) : List (List Char) :=
  lines.map to_bidi

/-- The reference algorithm of spec §4.1 taken at the spec's words, with the
spec's two-item qualifying set: partition the line into maximal spans that are
entirely qualifying or entirely non-qualifying, reverse the qualifying spans,
keep the non-qualifying spans, concatenate in order. -/
def spec_ref : List Char → List Char
  | [] => []
  | c :: cs =>
    if specQual c then
      (c :: cs.takeWhile specQual).reverse ++ spec_ref (cs.dropWhile specQual)
    else
      (c :: cs.takeWhile (fun x => ! specQual x)) ++
        spec_ref (cs.dropWhile (fun x => ! specQual x))
termination_by l => l.length
decreasing_by
  · exact Nat.lt_succ_of_le (length_dropWhile_le specQual cs)
  · exact Nat.lt_succ_of_le (length_dropWhile_le _ cs)

/-- The reference algorithm of spec §4.1 with the qualifying set enlarged to
the class the code matches (adding U+007C). -/
def spec_ref_amended : List Char → List Char
  | [] => []
  | c :: cs =>
    if isQual c then
      (c :: cs.takeWhile isQual).reverse ++ spec_ref_amended (cs.dropWhile isQual)
    else
      (c :: cs.takeWhile (fun x => ! isQual x)) ++
        spec_ref_amended (cs.dropWhile (fun x => ! isQual x))
termination_by l => l.length
decreasing_by
  · exact Nat.lt_succ_of_le (length_dropWhile_le isQual cs)
  · exact Nat.lt_succ_of_le (length_dropWhile_le _ cs)

/-! ### Helper lemmas about spans -/

/-- A list either is empty or starts with a character the predicate rejects:
the shape of the remainder left after a maximal run is consumed. -/
def headNot (p : Char → Bool) : List Char → Prop
  | [] => True
  | c :: _ => p c = false

theorem headNot_nil (p : Char → Bool) : headNot p [] := trivial

theorem takeWhile_eq_nil_of_headNot {p : Char → Bool} {l : List Char}
    (h : headNot p l) : l.takeWhile p = [] := by
  cases l with
  | nil => rfl
  | cons c cs => simp only [headNot] at h; simp [List.takeWhile_cons, h]

theorem dropWhile_eq_self_of_headNot {p : Char → Bool} {l : List Char}
    (h : headNot p l) : l.dropWhile p = l := by
  cases l with
  | nil => rfl
  | cons c cs => simp only [headNot] at h; simp [List.dropWhile_cons, h]

theorem headNot_dropWhile (p : Char → Bool) (l : List Char) :
    headNot p (l.dropWhile p) := by
  induction l with
  | nil => trivial
  | cons c cs ih =>
    rw [List.dropWhile_cons]
    split
    · exact ih
    · rename_i hpc
      simp only [headNot]
      exact Bool.not_eq_true _ ▸ hpc

theorem takeWhile_append_of_all {p : Char → Bool} {a b : List Char}
    (h : ∀ x ∈ a, p x = true) : (a ++ b).takeWhile p = a ++ b.takeWhile p := by
  induction a with
  | nil => rfl
  | cons c cs ih =>
    have hc : p c = true := h c (List.mem_cons_self c cs)
    simp only [List.cons_append, List.takeWhile_cons, hc, if_true]
    rw [ih fun x hx => h x (List.mem_cons_of_mem c hx)]

theorem dropWhile_append_of_all {p : Char → Bool} {a b : List Char}
    (h : ∀ x ∈ a, p x = true) : (a ++ b).dropWhile p = b.dropWhile p := by
  induction a with
  | nil => rfl
  | cons c cs ih =>
    have hc : p c = true := h c (List.mem_cons_self c cs)
    simp only [List.cons_append, List.dropWhile_cons, hc, if_true]
    exact ih fun x hx => h x (List.mem_cons_of_mem c hx)

theorem all_isQual_run (c : Char) (cs : List Char) (hc : isQual c = true) :
    ∀ x ∈ c :: cs.takeWhile isQual, isQual x = true := by
  intro x hx
  rcases List.mem_cons.1 hx with h | h
  · exact h ▸ hc
  · exact List.mem_takeWhile_imp h

theorem reverse_eq_self_of_const {α : Type} {a : α} {l : List α}
    (h : ∀ x ∈ l, x = a) : l.reverse = l := by
  rw [List.eq_replicate_of_mem h, List.reverse_replicate]

/-! ### Unfolding equations for `to_bidi` -/

theorem to_bidi_nil : to_bidi [] = [] := by simp [to_bidi]

theorem to_bidi_cons_pos {c : Char} (cs : List Char) (hc : isQual c = true) :
    to_bidi (c :: cs) =
      (c :: cs.takeWhile isQual).reverse ++ to_bidi (cs.dropWhile isQual) := by
  rw [to_bidi]; simp [hc]

theorem to_bidi_cons_neg {c : Char} (cs : List Char) (hc : isQual c = false) :
    to_bidi (c :: cs) = c :: to_bidi cs := by
  rw [to_bidi]; simp [hc]

/-- Pushing the transform through a fully qualifying prefix followed by a
remainder that does not begin with a qualifying character. -/
theorem to_bidi_qual_append {a b : List Char}
    (ha : ∀ x ∈ a, isQual x = true) (hb : headNot isQual b) :
    to_bidi (a ++ b) = a.reverse ++ to_bidi b := by
  cases a with
  | nil => simp
  | cons c cs =>
    have hc : isQual c = true := ha c (List.mem_cons_self c cs)
    have hcs : ∀ x ∈ cs, isQual x = true := fun x hx => ha x (List.mem_cons_of_mem c hx)
    rw [List.cons_append, to_bidi_cons_pos _ hc,
      takeWhile_append_of_all hcs, dropWhile_append_of_all hcs,
      takeWhile_eq_nil_of_headNot hb, dropWhile_eq_self_of_headNot hb,
      List.append_nil]

theorem headNot_to_bidi {l : List Char} (h : headNot isQual l) :
    headNot isQual (to_bidi l) := by
  cases l with
  | nil => rw [to_bidi_nil]; trivial
  | cons c cs =>
    simp only [headNot] at h
    rw [to_bidi_cons_neg _ h]
    exact h

/-! ### Core structural lemmas -/

theorem to_bidi_perm (l : List Char) : (to_bidi l).Perm l := by
  induction l using to_bidi.induct with
  | case1 => rw [to_bidi_nil]
  | case2 c cs hc ih =>
    rw [to_bidi_cons_pos _ hc]
    have h1 : ((c :: cs.takeWhile isQual).reverse ++ to_bidi (cs.dropWhile isQual)).Perm
        ((c :: cs.takeWhile isQual) ++ cs.dropWhile isQual) :=
      (List.reverse_perm _).append ih
    simpa [List.takeWhile_append_dropWhile] using h1
  | case3 c cs hc ih =>
    have hc' : isQual c = false := by simpa using hc
    rw [to_bidi_cons_neg _ hc']
    exact ih.cons c

theorem to_bidi_length (l : List Char) : (to_bidi l).length = l.length :=
  (to_bidi_perm l).length_eq

theorem to_bidi_map_isQual (l : List Char) :
    (to_bidi l).map isQual = l.map isQual := by
  induction l using to_bidi.induct with
  | case1 => rw [to_bidi_nil]
  | case2 c cs hc ih =>
    rw [to_bidi_cons_pos _ hc, List.map_append, ih, List.map_reverse]
    have hconst : ∀ b ∈ (c :: cs.takeWhile isQual).map isQual, b = true := by
      intro b hb
      rcases List.mem_map.1 hb with ⟨x, hx, hbx⟩
      exact hbx ▸ all_isQual_run c cs hc x hx
    rw [reverse_eq_self_of_const hconst, ← List.map_append,
      List.cons_append, List.takeWhile_append_dropWhile]
  | case3 c cs hc ih =>
    have hc' : isQual c = false := by simpa using hc
    rw [to_bidi_cons_neg _ hc', List.map_cons, List.map_cons, ih]

theorem to_bidi_involutive (l : List Char) : to_bidi (to_bidi l) = l := by
  induction l using to_bidi.induct with
  | case1 => rw [to_bidi_nil, to_bidi_nil]
  | case2 c cs hc ih =>
    rw [to_bidi_cons_pos _ hc]
    have hrev : ∀ x ∈ (c :: cs.takeWhile isQual).reverse, isQual x = true := by
      intro x hx
      exact all_isQual_run c cs hc x (List.mem_reverse.1 hx)
    have hb : headNot isQual (to_bidi (cs.dropWhile isQual)) :=
      headNot_to_bidi (headNot_dropWhile isQual cs)
    rw [to_bidi_qual_append hrev hb, List.reverse_reverse, ih,
      List.cons_append, List.takeWhile_append_dropWhile]
  | case3 c cs hc ih =>
    have hc' : isQual c = false := by simpa using hc
    rw [to_bidi_cons_neg _ hc', to_bidi_cons_neg _ hc', ih]

/-! ### Unfolding equations for `spec_ref_amended` and its agreement with
`to_bidi` -/

theorem spec_ref_amended_nil : spec_ref_amended [] = [] := by
  simp [spec_ref_amended]

theorem spec_ref_amended_cons_pos {c : Char} (cs : List Char)
    (hc : isQual c = true) :
    spec_ref_amended (c :: cs) =
      (c :: cs.takeWhile isQual).reverse ++
        spec_ref_amended (cs.dropWhile isQual) := by
  rw [spec_ref_amended]; simp [hc]

theorem spec_ref_amended_cons_neg {c : Char} (cs : List Char)
    (hc : isQual c = false) :
    spec_ref_amended (c :: cs) =
      (c :: cs.takeWhile (fun x => ! isQual x)) ++
        spec_ref_amended (cs.dropWhile (fun x => ! isQual x)) := by
  rw [spec_ref_amended]; simp [hc]

/-- Splitting a non-qualifying span off the front leaves the reference
transform unchanged: the span of the first character absorbs it. -/
theorem spec_ref_amended_nonqual_span (l : List Char) :
    l.takeWhile (fun x => ! isQual x) ++
      spec_ref_amended (l.dropWhile (fun x => ! isQual x)) =
    spec_ref_amended l := by
  cases l with
  | nil => simp
  | cons d ds =>
    by_cases hd : isQual d = true
    · simp [List.takeWhile_cons, List.dropWhile_cons, hd]
    · have hd' : isQual d = false := by simpa using hd
      rw [spec_ref_amended_cons_neg _ hd']
      simp [List.takeWhile_cons, List.dropWhile_cons, hd']

/-- The code's transform coincides with the span-partition reference
algorithm once the reference uses the class the code matches. -/
theorem to_bidi_eq_spec_ref_amended (l : List Char) :
    to_bidi l = spec_ref_amended l := by
  induction l using to_bidi.induct with
  | case1 => rw [to_bidi_nil, spec_ref_amended_nil]
  | case2 c cs hc ih =>
    rw [to_bidi_cons_pos _ hc, spec_ref_amended_cons_pos _ hc, ih]
  | case3 c cs hc ih =>
    have hc' : isQual c = false := by simpa using hc
    rw [to_bidi_cons_neg _ hc', ih, spec_ref_amended_cons_neg _ hc',
      List.cons_append, spec_ref_amended_nonqual_span]

/-! ### The two character classes, compared -/

theorem isQual_of_specQual {c : Char} (h : specQual c = true) :
    isQual c = true := by
  simp only [specQual, Bool.or_eq_true] at h
  simp only [isQual, Bool.or_eq_true]
  tauto

/-- A character the code's class accepts but the spec's class rejects is
exactly the vertical bar U+007C. -/
theorem eq_pipe_of_isQual_not_specQual {c : Char}
    (hq : isQual c = true) (hs : specQual c = false) : c = Char.ofNat 0x7C := by
  have ht : c.toNat = 0x7C := by
    simp only [isQual, specQual, Bool.or_eq_true, Bool.and_eq_true,
      decide_eq_true_eq, beq_iff_eq, Bool.or_eq_false_iff,
      Bool.and_eq_false_iff, decide_eq_false_iff_not, beq_eq_false_iff_ne,
      ne_eq] at hq hs
    omega
  have hnum : c.toNat = (Char.ofNat 0x7C).toNat := by
    rw [ht]
    decide
  exact Char.ext (UInt32.toNat.inj hnum)

/-- If no character of the line is in the spec's qualifying set, every run
the code reverses consists solely of vertical bars, and reversing it is the
identity: the line comes back unchanged. -/
theorem to_bidi_eq_self_of_no_specQual (l : List Char) :
    (∀ c ∈ l, specQual c = false) → to_bidi l = l := by
  induction l using to_bidi.induct with
  | case1 => intro _; exact to_bidi_nil
  | case2 c cs hc ih =>
    intro h
    rw [to_bidi_cons_pos _ hc]
    have hpipe : ∀ x ∈ c :: cs.takeWhile isQual, x = Char.ofNat 0x7C := by
      intro x hx
      have hq := all_isQual_run c cs hc x hx
      have hmem : x ∈ c :: cs := by
        rcases List.mem_cons.1 hx with h1 | h1
        · exact h1 ▸ List.mem_cons_self c cs
        · exact List.mem_cons_of_mem c (List.takeWhile_subset _ h1)
      exact eq_pipe_of_isQual_not_specQual hq (h x hmem)
    rw [reverse_eq_self_of_const hpipe,
      ih fun x hx => h x (List.mem_cons_of_mem c (List.dropWhile_subset _ hx)),
      List.cons_append, List.takeWhile_append_dropWhile]
  | case3 c cs hc ih =>
    intro h
    have hc' : isQual c = false := by simpa using hc
    rw [to_bidi_cons_neg _ hc',
      ih fun x hx => h x (List.mem_cons_of_mem c hx)]

/-- A line made entirely of spec-qualifying characters is one single run and
comes back reversed whole. -/
theorem to_bidi_eq_reverse_of_all_specQual (l : List Char) :
    (∀ c ∈ l, specQual c = true) → to_bidi l = l.reverse := by
  intro h
  have hq : ∀ x ∈ l, isQual x = true := fun x hx => isQual_of_specQual (h x hx)
  have h1 : to_bidi (l ++ []) = l.reverse ++ to_bidi [] :=
    to_bidi_qual_append hq (headNot_nil _)
  simpa [to_bidi_nil] using h1

/-! ### Preservation of the position of unmatched characters -/

/-- Optional-indexing version: a position holding a character outside the
code's class holds the same character after the transform. -/
theorem to_bidi_getElem?_of_not_isQual (l : List Char) :
    ∀ (i : Nat) (c : Char), l[i]? = some c → isQual c = false →
      (to_bidi l)[i]? = some c := by
  induction l using to_bidi.induct with
  | case1 =>
    intro i c hsome _
    simp at hsome
  | case2 c₀ cs hc ih =>
    intro i c hsome hq
    have hdecomp : c₀ :: cs = (c₀ :: cs.takeWhile isQual) ++ cs.dropWhile isQual := by
      rw [List.cons_append, List.takeWhile_append_dropWhile]
    rcases Nat.lt_or_ge i (c₀ :: cs.takeWhile isQual).length with hi | hi
    · exfalso
      rw [hdecomp, List.getElem?_append_left hi] at hsome
      have hmem : c ∈ c₀ :: cs.takeWhile isQual := List.getElem?_mem hsome
      rw [all_isQual_run c₀ cs hc c hmem] at hq
      exact Bool.noConfusion hq
    · rw [to_bidi_cons_pos _ hc,
        List.getElem?_append_right (by simpa using hi), List.length_reverse]
      apply ih _ _ _ hq
      rw [hdecomp, List.getElem?_append_right hi] at hsome
      exact hsome
  | case3 c₀ cs hc ih =>
    intro i c hsome hq
    have hc' : isQual c₀ = false := by simpa using hc
    rw [to_bidi_cons_neg _ hc']
    match i with
    | 0 =>
      rw [List.getElem?_cons_zero] at hsome ⊢
      exact hsome
    | i + 1 =>
      rw [List.getElem?_cons_succ] at hsome ⊢
      exact ih i c hsome hq

/-! ### Claims -/

/-- Claim C1, as stated, is false: the spec's reference algorithm with the
two-item qualifying set leaves `"|س"` unchanged (the bar is non-qualifying
and the one-character run reverses to itself), while the code moves the bar,
because the regex class also contains the literal `|`. -/
theorem C1_counterexample :
    to_bidi [Char.ofNat 0x7C, Char.ofNat 0x633] ≠
      spec_ref [Char.ofNat 0x7C, Char.ofNat 0x633] := by
  have h1 : to_bidi [Char.ofNat 0x7C, Char.ofNat 0x633] =
      [Char.ofNat 0x633, Char.ofNat 0x7C] := by
    simp [to_bidi, isQual]
  have h2 : spec_ref [Char.ofNat 0x7C, Char.ofNat 0x633] =
      [Char.ofNat 0x7C, Char.ofNat 0x633] := by
    simp [spec_ref, specQual]
  rw [h1, h2]
  decide

/-- Claim C1 (amended): `to_bidi` equals the span-partition reference
algorithm of spec §4.1 once the qualifying set is enlarged to the class the
code actually matches, [U+0600, U+06FF] ∪ \x7bU+200C, U+007C\x7d. -/
theorem C1_refines_amended_reference (l : List Char) :
    to_bidi l = spec_ref_amended l :=
  to_bidi_eq_spec_ref_amended l

/-- Claim C2, as stated, is false: position 0 of `"|س"` holds `|`, which is
outside the spec's two-item qualifying set, yet the transform moves it. -/
theorem C2_counterexample :
    ¬ (∀ (l : List Char) (i : Nat) (h : i < l.length)
        (h2 : i < (to_bidi l).length),
        specQual (l.get ⟨i, h⟩) = false →
          (to_bidi l).get ⟨i, h2⟩ = l.get ⟨i, h⟩) := by
  intro hcl
  have hlen : (0 : Nat) <
      ([Char.ofNat 0x7C, Char.ofNat 0x633] : List Char).length := by decide
  have hlen2 : (0 : Nat) <
      (to_bidi [Char.ofNat 0x7C, Char.ofNat 0x633]).length := by
    rw [to_bidi_length]; decide
  have hq0 : specQual (([Char.ofNat 0x7C, Char.ofNat 0x633] : List Char).get
      ⟨0, Nat.succ_pos 1⟩) = false := by decide
  have h := hcl [Char.ofNat 0x7C, Char.ofNat 0x633] 0 hlen hlen2 hq0
  have h1 : to_bidi [Char.ofNat 0x7C, Char.ofNat 0x633] =
      [Char.ofNat 0x633, Char.ofNat 0x7C] := by
    simp [to_bidi, isQual]
  rw [List.get_eq_getElem, List.get_eq_getElem, List.getElem_of_eq h1] at h
  have hne : ¬ (([Char.ofNat 0x633, Char.ofNat 0x7C] : List Char).get
      ⟨0, Nat.succ_pos 1⟩ =
    ([Char.ofNat 0x7C, Char.ofNat 0x633] : List Char).get
      ⟨0, Nat.succ_pos 1⟩) := by decide
  exact hne h

/-- Claim C2 (amended): a character outside the class the code matches
([U+0600, U+06FF] ∪ \x7bU+200C, U+007C\x7d) is unchanged and keeps its
absolute position. -/
theorem C2_unmatched_keep_position (l : List Char) (i : Nat)
    (h : i < l.length) (h2 : i < (to_bidi l).length)
    (hq : isQual (l.get ⟨i, h⟩) = false) :
    (to_bidi l).get ⟨i, h2⟩ = l.get ⟨i, h⟩ := by
  have h0 : l[i]? = some (l.get ⟨i, h⟩) := by
    rw [List.get_eq_getElem]
    exact List.getElem?_eq_getElem h
  have h1 := to_bidi_getElem?_of_not_isQual l i _ h0 hq
  have h3 : (to_bidi l)[i]? = some ((to_bidi l).get ⟨i, h2⟩) := by
    rw [List.get_eq_getElem]
    exact List.getElem?_eq_getElem h2
  rw [h3] at h1
  exact Option.some.inj h1

/-- Concrete instance of C2 (amended): the Latin letter at position 0 of
`"aس"` is untouched. -/
theorem C2_unmatched_keep_position_witness :
    isQual (([Char.ofNat 0x61, Char.ofNat 0x633] : List Char).get
        ⟨0, by decide⟩) = false ∧
    (to_bidi [Char.ofNat 0x61, Char.ofNat 0x633]).get
        ⟨0, by rw [to_bidi_length]; decide⟩ =
      ([Char.ofNat 0x61, Char.ofNat 0x633] : List Char).get ⟨0, by decide⟩ :=
  ⟨by decide,
    C2_unmatched_keep_position [Char.ofNat 0x61, Char.ofNat 0x633] 0
      (by decide) (by rw [to_bidi_length]; decide) (by decide)⟩

/-- Claim C3: the class the code matches also contains the vertical bar
U+007C (which the spec's set does not), and on the input `"|س"` the bar is
moved by the reversal. -/
theorem C3_pipe_in_matched_class :
    isQual (Char.ofNat 0x7C) = true ∧
    specQual (Char.ofNat 0x7C) = false ∧
    to_bidi [Char.ofNat 0x7C, Char.ofNat 0x633] =
      [Char.ofNat 0x633, Char.ofNat 0x7C] := by
  refine ⟨by decide, by decide, ?_⟩
  simp [to_bidi, isQual]

/-- Claim C4: the transform preserves length and is a permutation of the
input's characters — nothing is deleted or inserted. -/
theorem C4_length_preserved_and_perm (l : List Char) :
    (to_bidi l).length = l.length ∧ (to_bidi l).Perm l :=
  ⟨to_bidi_length l, to_bidi_perm l⟩

/-- Claim C5: a line containing no character of the spec's qualifying set
comes back unchanged (the only extra characters the code matches are
vertical bars, and a run of identical bars reverses to itself). -/
theorem C5_no_qualifying_identity (l : List Char)
    (h : ∀ c ∈ l, specQual c = false) : to_bidi l = l :=
  to_bidi_eq_self_of_no_specQual l h

/-- Concrete instance of C5: `"a|b"` has no spec-qualifying character and is
unchanged. -/
theorem C5_no_qualifying_identity_witness :
    (∀ c ∈ ([Char.ofNat 0x61, Char.ofNat 0x7C, Char.ofNat 0x62] : List Char),
      specQual c = false) ∧
    to_bidi [Char.ofNat 0x61, Char.ofNat 0x7C, Char.ofNat 0x62] =
      [Char.ofNat 0x61, Char.ofNat 0x7C, Char.ofNat 0x62] :=
  ⟨by decide,
    C5_no_qualifying_identity [Char.ofNat 0x61, Char.ofNat 0x7C, Char.ofNat 0x62]
      (by decide)⟩

/-- Claim C6: a line consisting entirely of spec-qualifying characters is a
single run and comes back reversed whole. -/
theorem C6_all_qualifying_reversed (l : List Char)
    (h : ∀ c ∈ l, specQual c = true) : to_bidi l = l.reverse :=
  to_bidi_eq_reverse_of_all_specQual l h

/-- Concrete instance of C6: `"سد"` reverses to `"دس"`. -/
theorem C6_all_qualifying_reversed_witness :
    (∀ c ∈ ([Char.ofNat 0x633, Char.ofNat 0x62F] : List Char),
      specQual c = true) ∧
    to_bidi [Char.ofNat 0x633, Char.ofNat 0x62F] =
      ([Char.ofNat 0x633, Char.ofNat 0x62F] : List Char).reverse :=
  ⟨by decide,
    C6_all_qualifying_reversed [Char.ofNat 0x633, Char.ofNat 0x62F] (by decide)⟩

/-- Claim C7: when the per-position qualification mask (hence the run
boundaries) of `to_bidi l` agrees with that of `l`, applying the transform
twice returns the original line. -/
theorem C7_double_transform_identity (l : List Char)
    (h : (to_bidi l).map isQual = l.map isQual) :
    to_bidi (to_bidi l) = l :=
  to_bidi_involutive l

/-- Concrete instance of C7 on `"سa"`: the mask is preserved and the double
transform is the identity. -/
theorem C7_double_transform_identity_witness :
    ((to_bidi [Char.ofNat 0x633, Char.ofNat 0x61]).map isQual =
      ([Char.ofNat 0x633, Char.ofNat 0x61] : List Char).map isQual) ∧
    to_bidi (to_bidi [Char.ofNat 0x633, Char.ofNat 0x61]) =
      [Char.ofNat 0x633, Char.ofNat 0x61] :=
  ⟨to_bidi_map_isQual _,
    C7_double_transform_identity [Char.ofNat 0x633, Char.ofNat 0x61]
      (to_bidi_map_isQual _)⟩

/-- Claim C8: unconditionally, the transform preserves the per-position
qualification mask (run boundaries never move) and is an involution. -/
theorem C8_involution_unconditional (l : List Char) :
    (to_bidi l).map isQual = l.map isQual ∧ to_bidi (to_bidi l) = l :=
  ⟨to_bidi_map_isQual l, to_bidi_involutive l⟩

/-- Claim C9: the transform is total — every line has a (unique) defined
output — and the empty line maps to the empty line. -/
theorem C9_total_and_empty (l : List Char) :
    to_bidi [] = [] ∧ ∃ r : List Char, to_bidi l = r :=
  ⟨to_bidi_nil, ⟨to_bidi l, rfl⟩⟩

/-- Claim C10: the multi-line transform returns exactly as many lines as it
is given, and its i-th line is `to_bidi` of the i-th input line. -/
theorem C10_bidi_maps_lines (lines : List (List Char)) :
    (_bidi lines).length = lines.length ∧
    ∀ (i : Nat) (h : i < lines.length) (h2 : i < (_bidi lines).length),
      (_bidi lines).get ⟨i, h2⟩ = to_bidi (lines.get ⟨i, h⟩) := by
  refine ⟨by simp [_bidi], ?_⟩
  intro i h h2
  simp [_bidi]

/-- Concrete instance of C10 on the one-line list `[["س"]]`. -/
theorem C10_bidi_maps_lines_witness :
    (_bidi [[Char.ofNat 0x633]]).length = 1 ∧
    (_bidi [[Char.ofNat 0x633]]).get ⟨0, by simp [_bidi]⟩ =
      to_bidi [Char.ofNat 0x633] :=
  ⟨(C10_bidi_maps_lines [[Char.ofNat 0x633]]).1,
    (C10_bidi_maps_lines [[Char.ofNat 0x633]]).2 0 (by decide)
      (by simp [_bidi])⟩

end BidiView
